import Mathlib

/-!
Verification of the quantitative analytics engine and its React frontend
(twoziq/firebase). The repository ships only the frontend; the numeric
backend (main.py) is absent, so engine components are modelled from the
specification, while frontend computations (trend-band reconstruction,
valuation-card rendering) are embedded from the TypeScript source.
All monetary/price arithmetic is carried out over ℚ where the code is
float arithmetic on rational float values; transcendental steps
(log-linear regression, volatility) use ℝ.
-/

namespace Firebase

/-! ## Monte Carlo Path Simulator (§4.4, modelled from the spec) -/

/-- Modelled from the spec: the backend's floating-point exponential
(used in the GBM step `exp((mu - sigma^2/2)·dt + sigma·√dt·Z)`) is
modelled by a rational truncated Taylor series; the claims about the
simulator use only the value at 0, where the model and the float
function agree exactly (`expQ 0 = 1`). -/
def expQ (x : ℚ) : ℚ :=
  (List.range 21).foldr (fun k acc => x ^ k / (Nat.factorial k : ℚ) + acc) 0

/-- Modelled from the spec: the explicit, injectable seeded random
source (§9) as a linear congruential step. -/
def lcg (s : ℕ) : ℕ :=
  (1664525 * s + 1013904223) % 2 ^ 32

/-- Iterate the generator. -/
def lcgIter (s : ℕ) : ℕ → ℕ
  | 0 => s
  | k + 1 => lcgIter (lcg s) k

/-- Modelled from the spec: the i-th standard-normal draw of a seeded
stream. The backend draws normals from a seeded generator; the
distribution of the draw is irrelevant to every stated property, so the
draw is modelled as a seeded rational in [-1, 1]. -/
def zDraw (seed i : ℕ) : ℚ :=
  (lcgIter seed (i + 1) : ℚ) / 2 ^ 31 - 1

/-- Modelled from the spec (§4.4 step 2): GBM price recursion
`price[t] = price[t-1] · exp((mu - 0.5·sigma²)·dt + sigma·√dt·Z)` with
dt = 1 trading day, for path index j of a simulation with horizon n. -/
def gbmPrice (seed : ℕ) (mu sigma anchor : ℚ) (n j : ℕ) : ℕ → ℚ
  | 0 => anchor
  | t + 1 =>
    gbmPrice seed mu sigma anchor n j t *
      expQ ((mu - sigma ^ 2 / 2) + sigma * zDraw seed (j * n + t))

/-- Nearest-rank index used by the percentile reduction. -/
def pctIdx (q n : ℕ) : ℕ :=
  min (n - 1) (q * n / 100)

/-- Modelled from the spec (§4.4 step 3): the q-th percentile of a list
of path values, by sorting and nearest-rank selection. -/
def percentileQ (q : ℕ) (l : List ℚ) : ℚ :=
  (l.insertionSort (· ≤ ·)).getD (pctIdx q l.length) 0

/-- The values of all P paths at one day index. -/
def dayValues (seed : ℕ) (mu sigma anchor : ℚ) (n p t : ℕ) : List ℚ :=
  (List.range p).map fun j => gbmPrice seed mu sigma anchor n j t

/-- Reduced output of one simulation run (§3 SimulationPath). -/
structure SimOutput where
  p05 : List ℚ
  p50 : List ℚ
  p95 : List ℚ
  samples : List (List ℚ)
  deriving DecidableEq, Repr

/-- Modelled from the spec (§4.4): run P paths for n forward days from
the anchor price, reduce to p05/p50/p95 per day, and retain a small
fixed sample of raw paths (at most 30). -/
def simulate (seed : ℕ) (mu sigma anchor : ℚ) (n p : ℕ) : SimOutput where
  p05 := (List.range (n + 1)).map fun t => percentileQ 5 (dayValues seed mu sigma anchor n p t)
  p50 := (List.range (n + 1)).map fun t => percentileQ 50 (dayValues seed mu sigma anchor n p t)
  p95 := (List.range (n + 1)).map fun t => percentileQ 95 (dayValues seed mu sigma anchor n p t)
  samples := (List.range (min p 30)).map fun j =>
    (List.range (n + 1)).map (gbmPrice seed mu sigma anchor n j)

/-! ## Trend Regression Engine (§4.2, modelled from the spec) -/

/-- Modelled from the spec: the log-price series y = ln(price). -/
noncomputable def logPrices (prices : List ℚ) : List ℝ :=
  prices.map fun p => Real.log (p : ℝ)

/-- Sum of the day indices 0..n-1 of the fit. -/
noncomputable def idxSum (n : ℕ) : ℝ :=
  ((List.range n).map fun i : ℕ => (i : ℝ)).sum

/-- Sum of squared day indices of the fit. -/
noncomputable def idxSqSum (n : ℕ) : ℝ :=
  ((List.range n).map fun i : ℕ => (i : ℝ) ^ 2).sum

/-- Sum of index-weighted log prices. -/
noncomputable def idxLogSum (y : List ℝ) : ℝ :=
  (y.enum.map fun pr => (pr.1 : ℝ) * pr.2).sum

/-- Modelled from the spec: OLS slope of ln(price) against day index. -/
noncomputable def olsSlope (y : List ℝ) : ℝ :=
  ((y.length : ℝ) * idxLogSum y - idxSum y.length * y.sum) /
    ((y.length : ℝ) * idxSqSum y.length - idxSum y.length ^ 2)

/-- Modelled from the spec: OLS intercept of ln(price) against day index. -/
noncomputable def olsIntercept (y : List ℝ) : ℝ :=
  (y.sum - olsSlope y * idxSum y.length) / (y.length : ℝ)

/-- Modelled from the spec: residual of the log-linear fit at index i. -/
noncomputable def residualAt (y : List ℝ) (i : ℕ) : ℝ :=
  y.getD i 0 - (olsSlope y * (i : ℝ) + olsIntercept y)

/-- Modelled from the spec: sample standard deviation of the fit
residuals (Bessel-corrected, as §4.2 recommends). -/
noncomputable def residualStd (y : List ℝ) : ℝ :=
  Real.sqrt ((((List.range y.length).map fun i => residualAt y i ^ 2).sum) /
    ((y.length : ℝ) - 1))

/-- Modelled from the spec (§3 TrendFit): middle[t] = exp(slope·t + intercept). -/
noncomputable def trendMiddle (prices : List ℚ) (t : ℕ) : ℝ :=
  Real.exp (olsSlope (logPrices prices) * (t : ℝ) + olsIntercept (logPrices prices))

/-- Modelled from the spec (§3 TrendFit): upper[t] = middle[t]·exp(2·residual_std). -/
noncomputable def trendUpper (prices : List ℚ) (t : ℕ) : ℝ :=
  trendMiddle prices t * Real.exp (2 * residualStd (logPrices prices))

/-- Modelled from the spec (§3 TrendFit): lower[t] = middle[t]·exp(−2·residual_std). -/
noncomputable def trendLower (prices : List ℚ) (t : ℕ) : ℝ :=
  trendMiddle prices t * Real.exp (-(2 * residualStd (logPrices prices)))

/-! ## Frontend band reconstruction
(embedded from src/frontend/src/pages/TrendAnalysis.tsx, lines 51-60) -/

/-- Embedded from TrendAnalysis.tsx line 53:
upperFactor = trend_upper / trend_middle_history[length - 1]. -/
def upperFactor (trend_upper : ℚ) (middleHist : List ℚ) : ℚ :=
  trend_upper / middleHist.getD (middleHist.length - 1) 0

/-- Embedded from TrendAnalysis.tsx line 54:
lowerFactor = trend_lower / trend_middle_history[length - 1]. -/
def lowerFactor (trend_lower : ℚ) (middleHist : List ℚ) : ℚ :=
  trend_lower / middleHist.getD (middleHist.length - 1) 0

/-- Embedded from TrendAnalysis.tsx line 58 (finalChartData):
upper[t] = middle[t] * upperFactor. -/
def reconUpper (trend_upper : ℚ) (middleHist : List ℚ) (t : ℕ) : ℚ :=
  middleHist.getD t 0 * upperFactor trend_upper middleHist

/-- Embedded from TrendAnalysis.tsx line 59 (finalChartData):
lower[t] = middle[t] * lowerFactor. -/
def reconLower (trend_lower : ℚ) (middleHist : List ℚ) (t : ℕ) : ℚ :=
  middleHist.getD t 0 * lowerFactor trend_lower middleHist

/-! ## DCA Simulator (§4.5, modelled from the spec) -/

/-- Modelled from the spec: number of contribution dates among the
first m trading days; contributions fall on every k-th trading day
(daily k = 1, weekly k = 5, monthly k = 21 — the first trading day at
or after each period boundary). -/
def contribCount (k m : ℕ) : ℕ :=
  ((List.range m).filter fun i => i % k = 0).length

/-- Modelled from the spec: shares held after the first m trading days,
buying amount / price on each contribution date. -/
def sharesHeld (prices : List ℚ) (amount : ℚ) (k m : ℕ) : ℚ :=
  (((List.range m).filter fun i => i % k = 0).map fun i =>
    amount / prices.getD i 0).sum

/-- Modelled from the spec: invested_curve[t] = invested-to-date. -/
def investedCurve (prices : List ℚ) (amount : ℚ) (k : ℕ) : List ℚ :=
  (List.range prices.length).map fun t => amount * (contribCount k (t + 1) : ℚ)

/-- Modelled from the spec: valuation_curve[t] = shares_held[t] × price[t]. -/
def valuationCurve (prices : List ℚ) (amount : ℚ) (k : ℕ) : List ℚ :=
  (List.range prices.length).map fun t =>
    sharesHeld prices amount k (t + 1) * prices.getD t 0

/-- Result record of one DCA simulation (frontend type DcaData). -/
structure DcaResult where
  total_invested : ℚ
  final_value : ℚ
  return_pct : ℚ
  invested_curve : List ℚ
  valuation_curve : List ℚ
  deriving DecidableEq, Repr

/-- Modelled from the spec (§4.5): replay the periodic-contribution
strategy over the price series; final_value is the terminal portfolio
value and return_pct = (final_value/total_invested − 1) × 100. -/
def dcaSimulate (prices : List ℚ) (amount : ℚ) (k : ℕ) : DcaResult where
  total_invested := amount * (contribCount k prices.length : ℚ)
  final_value :=
    sharesHeld prices amount k prices.length * prices.getD (prices.length - 1) 0
  return_pct :=
    (sharesHeld prices amount k prices.length * prices.getD (prices.length - 1) 0 /
      (amount * (contribCount k prices.length : ℚ)) - 1) * 100
  invested_curve := investedCurve prices amount k
  valuation_curve := valuationCurve prices amount k

/-! ## Distribution & Z-Score Analyzer (§4.3, modelled from the spec) -/

/-- Smallest observation (left end of the histogram range). -/
def qMin (l : List ℚ) : ℚ :=
  l.foldr min (l.getD 0 0)

/-- Largest observation (right end of the histogram range). -/
def qMax (l : List ℚ) : ℚ :=
  l.foldr max (l.getD 0 0)

/-- Modelled from the spec: bin index of one observation for b bins of
equal width starting at lo, clamped into 0..b-1. -/
def binIdx (lo width : ℚ) (b : ℕ) (x : ℚ) : ℕ :=
  min (b - 1) ((x - lo) / width).floor.toNat

/-- Width of one histogram bin over the observed range. -/
def binWidth (returns : List ℚ) (b : ℕ) : ℚ :=
  (qMax returns - qMin returns) / (b : ℚ)

/-- Modelled from the spec (§4.3): the histogram's per-bin counts over
the return observations of the analysis window. -/
def histCounts (returns : List ℚ) (b : ℕ) : List ℕ :=
  (List.range b).map fun i =>
    returns.countP fun x => binIdx (qMin returns) (binWidth returns b) b x = i

/-- Modelled from the spec (§4.3): the histogram's bin edges; edge i is
the left edge of bin i. -/
def histEdges (returns : List ℚ) (b : ℕ) : List ℚ :=
  (List.range (b + 1)).map fun i : ℕ => qMin returns + (i : ℚ) * binWidth returns b

/-- Modelled from the spec: simple period returns price[t]/price[t-1] − 1. -/
def simpleReturns (prices : List ℚ) : List ℚ :=
  (prices.zip prices.tail).map fun pr => pr.2 / pr.1 - 1

/-- The rolling window of the L returns preceding index t. -/
def windowQ (r : List ℚ) (L t : ℕ) : List ℚ :=
  (r.drop (t - L)).take L

/-- Mean of a window of returns. -/
def meanQ (l : List ℚ) : ℚ :=
  l.sum / (l.length : ℚ)

/-- Sample variance (Bessel-corrected) of a window of returns. -/
def varQ (l : List ℚ) : ℚ :=
  (l.map fun x => (x - meanQ l) ^ 2).sum / ((l.length : ℚ) - 1)

/-- Modelled from the spec (§4.3): the Z-score at index t of the return
series, reported as 0 (flagged degenerate) when the rolling window has
zero variance instead of raising an error. -/
noncomputable def zAt (r : List ℚ) (L t : ℕ) : ℝ :=
  if varQ (windowQ r L t) = 0 then 0
  else ((r.getD t 0 : ℝ) - (meanQ (windowQ r L t) : ℝ)) /
    Real.sqrt ((varQ (windowQ r L t) : ℝ))

/-- Modelled from the spec (§4.3): the full Z-score history, one entry
per date t ≥ L; a degenerate window contributes a 0 entry and does not
abort the rest of the history. -/
noncomputable def zHistory (r : List ℚ) (L : ℕ) : List ℝ :=
  (List.range (r.length - L)).map fun j => zAt r L (j + L)

/-! ## Risk/Return Aggregator (§4.6, modelled from the spec) -/

/-- One point of the risk/return map (frontend type RiskReturnData;
the field named return in TypeScript is ret here). -/
structure RiskReturnPoint where
  ticker : String
  ret : ℝ
  risk : ℝ

/-- Modelled from the spec (§9): per-item batch result variant, so a
failed ticker is a tagged entry rather than a dropped one. -/
inductive RiskItem where
  | success (point : RiskReturnPoint)
  | failure (ticker : String)

/-- Daily log returns of a price series. -/
noncomputable def logReturns (prices : List ℚ) : List ℝ :=
  (prices.zip prices.tail).map fun pr => Real.log ((pr.2 : ℝ) / (pr.1 : ℝ))

/-- Modelled from the spec (§4.6): annualized_return = mean(daily log
return) × 252. -/
noncomputable def annualizedReturn (prices : List ℚ) : ℝ :=
  (logReturns prices).sum / ((logReturns prices).length : ℝ) * 252

/-- Sample variance of a list of reals. -/
noncomputable def varR (l : List ℝ) : ℝ :=
  (l.map fun x => (x - l.sum / (l.length : ℝ)) ^ 2).sum / ((l.length : ℝ) - 1)

/-- Modelled from the spec (§4.6): annualized_volatility =
stddev(daily log return) × √252. -/
noncomputable def annualizedVol (prices : List ℚ) : ℝ :=
  Real.sqrt (varR (logReturns prices)) * Real.sqrt 252

/-- The risk/return point of one resolved ticker. -/
noncomputable def mkRiskPoint (t : String) (prices : List ℚ) : RiskReturnPoint :=
  ⟨t, annualizedReturn prices, annualizedVol prices⟩

/-- Modelled from the spec (§4.6): per-ticker batch computation; a
ticker whose price history the external collaborator cannot resolve
(fetch returns none) degrades to a failure entry for that ticker, not
an aborted batch. -/
noncomputable def riskReturnBatch (fetch : String → Option (List ℚ))
    (tickers : List String) : List RiskItem :=
  tickers.map fun t =>
    match fetch t with
    | none => RiskItem.failure t
    | some ps => RiskItem.success (mkRiskPoint t ps)

/-- The ticker an output entry belongs to. -/
def riskItemTicker : RiskItem → String
  | RiskItem.success point => point.ticker
  | RiskItem.failure t => t

/-- Whether an output entry is a partial-failure entry. -/
def riskItemIsFailure : RiskItem → Bool
  | RiskItem.success _ => false
  | RiskItem.failure _ => true

/-! ## Valuation Aggregator (§4.7, modelled from the spec) -/

/-- One basket constituent (frontend type MarketValuationData.details). -/
structure Constituent where
  ticker : String
  pe : ℚ
  market_cap : ℚ
  deriving DecidableEq, Repr

/-- Modelled from the spec (§4.7): constituents with pe ≤ 0 are invalid
and excluded from the weighted aggregate. -/
def validConstituents (l : List Constituent) : List Constituent :=
  l.filter fun c => decide (0 < c.pe)

/-- Modelled from the spec (§4.7): implied_earnings_i = market_cap_i / pe_i. -/
def impliedEarnings (c : Constituent) : ℚ :=
  c.market_cap / c.pe

/-- Total market capitalization of the basket. -/
def totalMarketCap (l : List Constituent) : ℚ :=
  (l.map fun c => c.market_cap).sum

/-- Total implied earnings over the valid constituents. -/
def totalImpliedEarnings (l : List Constituent) : ℚ :=
  ((validConstituents l).map impliedEarnings).sum

/-- Modelled from the spec (§4.7): weighted_pe = Σ market_cap / Σ
implied_earnings over valid constituents only. -/
def weightedPE (l : List Constituent) : ℚ :=
  ((validConstituents l).map fun c => c.market_cap).sum / totalImpliedEarnings l

/-! ## Frontend valuation cards
(embedded from src/frontend/src/pages/MarketValuation.tsx) -/

/-- A JavaScript IEEE-754 number as produced by dividing two finite
values: finite, ±Infinity, or NaN. -/
inductive JsNum where
  | fin (q : ℚ)
  | inf
  | neginf
  | nan
  deriving DecidableEq, Repr

/-- JS division of two finite numbers: x/0 is ±Infinity (NaN for 0/0),
never an exception. -/
def jsDiv (a b : ℚ) : JsNum :=
  if b = 0 then (if a = 0 then JsNum.nan else if 0 < a then JsNum.inf else JsNum.neginf)
  else JsNum.fin (a / b)

/-- JS isFinite. -/
def jsIsFinite : JsNum → Bool
  | JsNum.fin _ => true
  | _ => false

/-- Outcome of formatCurrency, keeping the chosen branch and the scaled
value; the toFixed string rendering itself is abstracted. -/
inductive CurrencyText where
  | na
  | tera (q : ℚ)
  | giga (q : ℚ)
  | mega (q : ℚ)
  deriving DecidableEq, Repr

/-- Embedded from MarketValuation.tsx lines 39-44: non-finite or falsy
(zero) values render as N/A; otherwise the value is scaled into T/B/M. -/
def formatCurrency (v : JsNum) : CurrencyText :=
  match v with
  | JsNum.fin q =>
    if q = 0 then CurrencyText.na
    else if (1000000000000 : ℚ) ≤ q then CurrencyText.tera (q / 1000000000000)
    else if (1000000000 : ℚ) ≤ q then CurrencyText.giga (q / 1000000000)
    else CurrencyText.mega (q / 1000000)
  | _ => CurrencyText.na

/-- One rendered valuation card. -/
structure ValuationCard where
  ticker : String
  earnings : JsNum
  earningsText : CurrencyText
  deriving DecidableEq, Repr

/-- Embedded from MarketValuation.tsx lines 132-153: each detail item is
mapped to a card, computing earnings = market_cap / pe unconditionally
(line 133) and formatting it with formatCurrency (line 152). -/
def renderCards (details : List Constituent) : List ValuationCard :=
  details.map fun item =>
    { ticker := item.ticker
      earnings := jsDiv item.market_cap item.pe
      earningsText := formatCurrency (jsDiv item.market_cap item.pe) }

/-! ## Theorems -/

theorem expQ_zero : expQ 0 = 1 := by
  unfold expQ
  norm_num [List.range_succ]

theorem gbmPrice_degenerate (seed : ℕ) (anchor : ℚ) (n j t : ℕ) :
    gbmPrice seed 0 0 anchor n j t = anchor := by
  induction t with
  | zero => rfl
  | succ t ih =>
      have h0 : ((0 : ℚ) - 0 ^ 2 / 2) + 0 * zDraw seed (j * n + t) = 0 := by ring
      rw [gbmPrice, ih, h0, expQ_zero, mul_one]

/-- A sorted list is monotone under getD within bounds. -/
theorem sorted_getD_mono {l : List ℚ} (hs : l.Sorted (· ≤ ·)) {i j : ℕ}
    (hij : i ≤ j) (hj : j < l.length) : l.getD i 0 ≤ l.getD j 0 := by
  have hi : i < l.length := lt_of_le_of_lt hij hj
  rw [List.getD_eq_get _ _ hi, List.getD_eq_get _ _ hj]
  exact hs.rel_get_of_le (by exact hij)

theorem percentileQ_mono {q q' : ℕ} (h : q ≤ q') (l : List ℚ) :
    percentileQ q l ≤ percentileQ q' l := by
  unfold percentileQ
  rcases Nat.eq_zero_or_pos l.length with h0 | hpos
  · have : l = [] := List.length_eq_zero.mp h0
    subst this
    simp [pctIdx]
  · have hlen : (l.insertionSort (· ≤ ·)).length = l.length :=
      List.length_insertionSort _ _
    have hidx : pctIdx q l.length ≤ pctIdx q' l.length := by
      unfold pctIdx
      exact min_le_min le_rfl (Nat.div_le_div_right (Nat.mul_le_mul_right _ h))
    have hjlt : pctIdx q' l.length < (l.insertionSort (· ≤ ·)).length := by
      rw [hlen]
      unfold pctIdx
      exact lt_of_le_of_lt (min_le_left _ _) (Nat.sub_lt hpos one_pos)
    exact sorted_getD_mono (List.sorted_insertionSort _ _) hidx hjlt

/-- Membership of an in-bounds getD access. -/
theorem getD_mem_of_lt {l : List ℚ} {t : ℕ} (h : t < l.length) : l.getD t 0 ∈ l := by
  rw [List.getD_eq_getElem l 0 h]
  exact List.getElem_mem h

/-- C1: every fitted trend satisfies lower[t] ≤ middle[t] ≤ upper[t] at
every index, and the frontend's reconstructed bands preserve this
ordering for any response with positive middle history and ordered
trend_lower ≤ middle[last] ≤ trend_upper. -/
theorem trend_bands_ordered :
    (∀ (prices : List ℚ) (t : ℕ),
      trendLower prices t ≤ trendMiddle prices t ∧
        trendMiddle prices t ≤ trendUpper prices t) ∧
    (∀ (tu tl : ℚ) (mh : List ℚ) (t : ℕ),
      (∀ m ∈ mh, 0 < m) → t < mh.length →
      tl ≤ mh.getD (mh.length - 1) 0 → mh.getD (mh.length - 1) 0 ≤ tu →
      reconLower tl mh t ≤ mh.getD t 0 ∧ mh.getD t 0 ≤ reconUpper tu mh t) := by
  constructor
  · intro prices t
    have hm : 0 < trendMiddle prices t := Real.exp_pos _
    have hσ : 0 ≤ residualStd (logPrices prices) := Real.sqrt_nonneg _
    constructor
    · unfold trendLower
      exact mul_le_of_le_one_right hm.le
        (Real.exp_le_one_iff.mpr (by linarith))
    · unfold trendUpper
      exact le_mul_of_one_le_right hm.le (Real.one_le_exp (by linarith))
  · intro tu tl mh t hpos ht h1 h2
    have hlen : 0 < mh.length := lt_of_le_of_lt (Nat.zero_le t) ht
    have hlast : 0 < mh.getD (mh.length - 1) 0 :=
      hpos _ (getD_mem_of_lt (Nat.sub_lt hlen one_pos))
    have hmid : 0 < mh.getD t 0 := hpos _ (getD_mem_of_lt ht)
    constructor
    · unfold reconLower lowerFactor
      exact mul_le_of_le_one_right hmid.le ((div_le_one hlast).mpr h1)
    · unfold reconUpper upperFactor
      exact le_mul_of_one_le_right hmid.le ((one_le_div hlast).mpr h2)

/-- C1 witness: the hypotheses of the frontend conjunct hold at a
concrete response and the ordering follows at index 0. -/
theorem trend_bands_ordered_witness :
    ((∀ m ∈ ([100, 110] : List ℚ), 0 < m) ∧ 0 < ([100, 110] : List ℚ).length ∧
      (90 : ℚ) ≤ ([100, 110] : List ℚ).getD 1 0 ∧
      ([100, 110] : List ℚ).getD 1 0 ≤ (121 : ℚ)) ∧
    (trendLower [100] 0 ≤ trendMiddle [100] 0 ∧
      trendMiddle [100] 0 ≤ trendUpper [100] 0) ∧
    (reconLower 90 [100, 110] 0 ≤ ([100, 110] : List ℚ).getD 0 0 ∧
      ([100, 110] : List ℚ).getD 0 0 ≤ reconUpper 121 [100, 110] 0) := by
  refine ⟨⟨?_, ?_, ?_, ?_⟩, trend_bands_ordered.1 [100] 0, ?_⟩
  · intro m hm
    rcases List.mem_cons.mp hm with h | h
    · rw [h]; norm_num
    · rw [List.mem_singleton.mp h]; norm_num
  · norm_num
  · norm_num
  · norm_num
  · exact trend_bands_ordered.2 121 90 [100, 110] 0
      (by intro m hm
          rcases List.mem_cons.mp hm with h | h
          · rw [h]; norm_num
          · rw [List.mem_singleton.mp h]; norm_num)
      (by norm_num) (by norm_num) (by norm_num)

/-- C10 counterexample: with middle history [0, 2] (nonzero last value)
and trend_upper = 4, the reconstructed ratio upper[t]/middle[t] is 0 at
index 0 but 2 at index 1, so the ratio is not identical at every index. -/
theorem recon_ratio_counterexample :
    ¬ (∀ (tu tl : ℚ) (mh : List ℚ), mh ≠ [] → mh.getD (mh.length - 1) 0 ≠ 0 →
        ((∀ i j, i < mh.length → j < mh.length →
          reconUpper tu mh i / mh.getD i 0 = reconUpper tu mh j / mh.getD j 0) ∧
         reconUpper tu mh (mh.length - 1) = tu ∧
         reconLower tl mh (mh.length - 1) = tl)) := by
  intro h
  have h2 := (h 4 1 [0, 2] (by simp) (by norm_num [List.getD])).1 0 1
    (by norm_num) (by norm_num)
  norm_num [reconUpper, upperFactor, List.getD] at h2

/-- C10 amended: when every middle value is nonzero (not only the last),
the reconstructed ratio upper[t]/middle[t] is the same at every index
and the reconstructed bands at the last index round-trip to the
response's trend_upper and trend_lower exactly. -/
theorem recon_factor_roundtrip (tu tl : ℚ) (mh : List ℚ) (hne : mh ≠ [])
    (hnz : ∀ m ∈ mh, m ≠ 0) :
    (∀ i j, i < mh.length → j < mh.length →
      reconUpper tu mh i / mh.getD i 0 = reconUpper tu mh j / mh.getD j 0) ∧
    reconUpper tu mh (mh.length - 1) = tu ∧
    reconLower tl mh (mh.length - 1) = tl := by
  have hlen : 0 < mh.length := List.length_pos.mpr hne
  have hlast : mh.getD (mh.length - 1) 0 ≠ 0 :=
    hnz _ (getD_mem_of_lt (Nat.sub_lt hlen one_pos))
  have hratio : ∀ i, i < mh.length →
      reconUpper tu mh i / mh.getD i 0 = upperFactor tu mh := by
    intro i hi
    rw [reconUpper, mul_comm, mul_div_assoc,
      div_self (hnz _ (getD_mem_of_lt hi)), mul_one]
  refine ⟨fun i j hi hj => by rw [hratio i hi, hratio j hj], ?_, ?_⟩
  · rw [reconUpper, upperFactor, mul_comm, div_mul_cancel₀ _ hlast]
  · rw [reconLower, lowerFactor, mul_comm, div_mul_cancel₀ _ hlast]

/-- C10 witness: the amended statement at the concrete response
middle = [1, 2], trend_upper = 4, trend_lower = 1. -/
theorem recon_factor_roundtrip_witness :
    (([1, 2] : List ℚ) ≠ [] ∧ (∀ m ∈ ([1, 2] : List ℚ), m ≠ 0)) ∧
    ((∀ i j, i < ([1, 2] : List ℚ).length → j < ([1, 2] : List ℚ).length →
      reconUpper 4 [1, 2] i / ([1, 2] : List ℚ).getD i 0 =
        reconUpper 4 [1, 2] j / ([1, 2] : List ℚ).getD j 0) ∧
     reconUpper 4 [1, 2] (([1, 2] : List ℚ).length - 1) = 4 ∧
     reconLower 1 [1, 2] (([1, 2] : List ℚ).length - 1) = 1) := by
  have hnz : ∀ m ∈ ([1, 2] : List ℚ), m ≠ 0 := by
    intro m hm
    rcases List.mem_cons.mp hm with h | h
    · rw [h]; norm_num
    · rw [List.mem_singleton.mp h]; norm_num
  exact ⟨⟨by simp, hnz⟩, recon_factor_roundtrip 4 1 [1, 2] (by simp) hnz⟩

theorem dayValues_degenerate (seed : ℕ) (anchor : ℚ) (n p t : ℕ) :
    dayValues seed 0 0 anchor n p t = List.replicate p anchor := by
  unfold dayValues
  rw [List.map_congr_left fun j _ => gbmPrice_degenerate seed anchor n j t]
  rw [List.map_const', List.length_range]

theorem percentileQ_replicate (q p : ℕ) (hp : 0 < p) (a : ℚ) :
    percentileQ q (List.replicate p a) = a := by
  unfold percentileQ
  have hlen : (List.replicate p a).length = p := List.length_replicate p a
  have hslen : ((List.replicate p a).insertionSort (· ≤ ·)).length = p := by
    rw [List.length_insertionSort, hlen]
  have hidx : pctIdx q (List.replicate p a).length < p := by
    rw [hlen]
    exact lt_of_le_of_lt (min_le_left _ _) (Nat.sub_lt hp one_pos)
  rw [List.getD_eq_getElem _ _ (by rw [hslen]; exact hidx)]
  exact List.eq_of_mem_replicate
    ((List.perm_insertionSort (· ≤ ·) _).subset (List.getElem_mem _))

theorem range_map_getD (n : ℕ) (f : ℕ → ℚ) (t : ℕ) (ht : t < n) :
    ((List.range n).map f).getD t 0 = f t := by
  rw [List.getD_eq_getElem _ _ (by simpa using ht)]
  simp

/-- C2: every simulation output has p05[t] ≤ p50[t] ≤ p95[t] at every
day index, and in the degenerate case mu = 0, sigma = 0 every simulated
path equals the anchor price at every day, so all three percentiles
equal the anchor. -/
theorem mc_percentiles_ordered :
    (∀ (seed : ℕ) (mu sigma anchor : ℚ) (n p t : ℕ),
      (simulate seed mu sigma anchor n p).p05.getD t 0 ≤
        (simulate seed mu sigma anchor n p).p50.getD t 0 ∧
      (simulate seed mu sigma anchor n p).p50.getD t 0 ≤
        (simulate seed mu sigma anchor n p).p95.getD t 0) ∧
    (∀ (seed : ℕ) (anchor : ℚ) (n p t j : ℕ), 0 < p → t ≤ n →
      gbmPrice seed 0 0 anchor n j t = anchor ∧
      (simulate seed 0 0 anchor n p).p05.getD t 0 = anchor ∧
      (simulate seed 0 0 anchor n p).p50.getD t 0 = anchor ∧
      (simulate seed 0 0 anchor n p).p95.getD t 0 = anchor) := by
  constructor
  · intro seed mu sigma anchor n p t
    by_cases ht : t < n + 1
    · unfold simulate
      rw [range_map_getD _ _ _ ht, range_map_getD _ _ _ ht, range_map_getD _ _ _ ht]
      exact ⟨percentileQ_mono (by norm_num) _, percentileQ_mono (by norm_num) _⟩
    · have hlen : ∀ f : ℕ → ℚ, (((List.range (n + 1)).map f).getD t 0) = 0 := by
        intro f
        rw [List.getD_eq_default]
        simpa using Nat.le_of_not_lt ht
      unfold simulate
      rw [hlen, hlen, hlen]
      exact ⟨le_refl 0, le_refl 0⟩
  · intro seed anchor n p t j hp ht
    have ht1 : t < n + 1 := Nat.lt_succ_of_le ht
    have hval : ∀ q : ℕ, percentileQ q (dayValues seed 0 0 anchor n p t) = anchor := by
      intro q
      rw [dayValues_degenerate, percentileQ_replicate q p hp]
    refine ⟨gbmPrice_degenerate seed anchor n j t, ?_, ?_, ?_⟩ <;>
      · unfold simulate
        rw [range_map_getD _ _ _ ht1, hval]

/-- C2 witness: the degenerate conjunct at seed 7, anchor 100, horizon
2 days, 3 paths, day 1, path 0. -/
theorem mc_percentiles_ordered_witness :
    (0 < 3 ∧ 1 ≤ 2) ∧
    (gbmPrice 7 0 0 100 2 0 1 = 100 ∧
     (simulate 7 0 0 100 2 3).p05.getD 1 0 = 100 ∧
     (simulate 7 0 0 100 2 3).p50.getD 1 0 = 100 ∧
     (simulate 7 0 0 100 2 3).p95.getD 1 0 = 100) :=
  ⟨⟨by decide, by decide⟩,
    mc_percentiles_ordered.2 7 100 2 3 1 0 (by decide) (by decide)⟩

/-- C5: the simulator takes the random seed as an explicit argument,
and two runs with the same seed and the same parameters (mu, sigma,
anchor, N, P) produce identical outputs. -/
theorem simulate_deterministic (seed seed' : ℕ) (mu mu' sigma sigma' anchor anchor' : ℚ)
    (n n' p p' : ℕ)
    (h : seed = seed' ∧ mu = mu' ∧ sigma = sigma' ∧ anchor = anchor' ∧ n = n' ∧ p = p') :
    simulate seed mu sigma anchor n p = simulate seed' mu' sigma' anchor' n' p' := by
  obtain ⟨h1, h2, h3, h4, h5, h6⟩ := h
  subst h1 h2 h3 h4 h5 h6
  rfl

/-- C5 witness: two runs at seed 42 and identical concrete parameters
agree. -/
theorem simulate_deterministic_witness :
    simulate 42 1 2 100 3 5 = simulate 42 1 2 100 3 5 :=
  simulate_deterministic 42 42 1 1 2 2 100 100 3 3 5 5
    ⟨rfl, rfl, rfl, rfl, rfl, rfl⟩

theorem valuationCurve_last (prices : List ℚ) (amount : ℚ) (k : ℕ)
    (hne : prices ≠ []) :
    (valuationCurve prices amount k).getD ((valuationCurve prices amount k).length - 1) 0 =
      sharesHeld prices amount k prices.length * prices.getD (prices.length - 1) 0 := by
  have hplen : 0 < prices.length := List.length_pos.mpr hne
  unfold valuationCurve
  rw [List.length_map, List.length_range,
    range_map_getD _ _ _ (Nat.sub_lt hplen one_pos),
    show prices.length - 1 + 1 = prices.length by omega]

/-- C3: for a DCA run with positive invested capital the reported
return_pct is (final_value / total_invested − 1) × 100, final_value is
the last entry of the valuation curve, and therefore
valuation_curve[last] / total_invested − 1 = return_pct / 100 exactly. -/
theorem dca_return_pct (prices : List ℚ) (amount : ℚ) (k : ℕ)
    (hne : prices ≠ []) (hpos : 0 < (dcaSimulate prices amount k).total_invested) :
    (dcaSimulate prices amount k).final_value =
      (dcaSimulate prices amount k).valuation_curve.getD
        ((dcaSimulate prices amount k).valuation_curve.length - 1) 0 ∧
    (dcaSimulate prices amount k).return_pct =
      ((dcaSimulate prices amount k).final_value /
        (dcaSimulate prices amount k).total_invested - 1) * 100 ∧
    (dcaSimulate prices amount k).valuation_curve.getD
        ((dcaSimulate prices amount k).valuation_curve.length - 1) 0 /
      (dcaSimulate prices amount k).total_invested - 1 =
      (dcaSimulate prices amount k).return_pct / 100 := by
  refine ⟨(valuationCurve_last prices amount k hne).symm, rfl, ?_⟩
  have e1 : (dcaSimulate prices amount k).valuation_curve =
      valuationCurve prices amount k := rfl
  have e2 : (dcaSimulate prices amount k).total_invested =
      amount * (contribCount k prices.length : ℚ) := rfl
  have e3 : (dcaSimulate prices amount k).return_pct =
      (sharesHeld prices amount k prices.length * prices.getD (prices.length - 1) 0 /
        (amount * (contribCount k prices.length : ℚ)) - 1) * 100 := rfl
  rw [e1, e2, e3, valuationCurve_last prices amount k hne]
  exact (mul_div_cancel_right₀ _ (by norm_num : (100 : ℚ) ≠ 0)).symm

/-- C3 witness: the end-to-end DCA scenario of §8 (prices
[100, 102, 101, 105, 103], amount 100, daily contributions). -/
theorem dca_return_pct_witness :
    (([100, 102, 101, 105, 103] : List ℚ) ≠ [] ∧
      0 < (dcaSimulate [100, 102, 101, 105, 103] 100 1).total_invested) ∧
    (dcaSimulate [100, 102, 101, 105, 103] 100 1).valuation_curve.getD
        ((dcaSimulate [100, 102, 101, 105, 103] 100 1).valuation_curve.length - 1) 0 /
      (dcaSimulate [100, 102, 101, 105, 103] 100 1).total_invested - 1 =
      (dcaSimulate [100, 102, 101, 105, 103] 100 1).return_pct / 100 := by
  have hcc : contribCount 1 5 = 5 := by decide
  have hpos : 0 < (dcaSimulate [100, 102, 101, 105, 103] 100 1).total_invested := by
    show 0 < (100 : ℚ) * (contribCount 1 5 : ℚ)
    rw [hcc]
    norm_num
  exact ⟨⟨by simp, hpos⟩,
    (dca_return_pct [100, 102, 101, 105, 103] 100 1 (by simp) hpos).2.2⟩

theorem range_map_sum_eq (g : ℕ → ℕ) (b : ℕ) :
    ((List.range b).map g).sum = ∑ i ∈ Finset.range b, g i := by
  induction b with
  | zero => simp
  | succ m ih =>
      rw [List.range_succ, List.map_append, List.sum_append,
        Finset.sum_range_succ, ih]
      simp

theorem sum_countP_bins (f : ℚ → ℕ) (b : ℕ) (l : List ℚ)
    (h : ∀ x ∈ l, f x < b) :
    ((List.range b).map fun i => l.countP fun x => f x = i).sum = l.length := by
  rw [range_map_sum_eq]
  induction l with
  | nil => simp
  | cons a t ih =>
      have ha : f a ∈ Finset.range b :=
        Finset.mem_range.mpr (h a (List.mem_cons_self a t))
      have ihl := ih fun x hx => h x (List.mem_cons_of_mem a hx)
      simp only [List.countP_cons, List.length_cons, decide_eq_true_eq]
      rw [Finset.sum_add_distrib, ihl, Finset.sum_ite_eq (Finset.range b) (f a),
        if_pos ha]

/-- C4: every histogram over the analysis window has bin counts summing
to the number of return observations, with exactly b counts, b + 1
edges, and edge i the left edge of bin i. -/
theorem hist_counts_sum (returns : List ℚ) (b : ℕ) (hb : 0 < b) :
    (histCounts returns b).sum = returns.length ∧
    (histCounts returns b).length = b ∧
    (histEdges returns b).length = b + 1 ∧
    (∀ i, i < b + 1 → (histEdges returns b).getD i 0 =
      qMin returns + (i : ℚ) * binWidth returns b) := by
  refine ⟨?_, by unfold histCounts; rw [List.length_map, List.length_range],
    by unfold histEdges; rw [List.length_map, List.length_range],
    fun i hi => by unfold histEdges; rw [range_map_getD _ _ _ hi]⟩
  unfold histCounts
  exact sum_countP_bins _ b returns
    (fun x _ => lt_of_le_of_lt (min_le_left _ _) (Nat.sub_lt hb one_pos))

/-- C4 witness: a concrete three-observation window binned into two
bins has counts summing to three. -/
theorem hist_counts_sum_witness :
    0 < 2 ∧ (histCounts [1, 2, 3] 2).sum = ([1, 2, 3] : List ℚ).length :=
  ⟨by decide, (hist_counts_sum [1, 2, 3] 2 (by decide)).1⟩

/-- C6: for a nonempty basket whose constituents all have positive PE
and positive market cap, weighted_pe × Σ(market_cap_i / pe_i) equals
total market cap exactly. -/
theorem weighted_pe_identity (l : List Constituent) (hne : l ≠ [])
    (hpe : ∀ c ∈ l, 0 < c.pe) (hmc : ∀ c ∈ l, 0 < c.market_cap) :
    weightedPE l * totalImpliedEarnings l = totalMarketCap l := by
  have hvalid : validConstituents l = l := by
    unfold validConstituents
    exact List.filter_eq_self.mpr fun c hc => decide_eq_true (hpe c hc)
  have hpos : 0 < totalImpliedEarnings l := by
    unfold totalImpliedEarnings
    rw [hvalid]
    refine List.sum_pos _ ?_ fun h => hne (List.map_eq_nil.mp h)
    intro x hx
    obtain ⟨c, hc, rfl⟩ := List.mem_map.mp hx
    exact div_pos (hmc c hc) (hpe c hc)
  unfold weightedPE
  rw [div_mul_cancel₀ _ hpos.ne', hvalid]
  rfl

/-- C6 witness: the identity at a concrete all-valid two-stock basket. -/
theorem weighted_pe_identity_witness :
    (([⟨"AAPL", 30, 3000⟩, ⟨"MSFT", 35, 2800⟩] : List Constituent) ≠ [] ∧
      (∀ c ∈ ([⟨"AAPL", 30, 3000⟩, ⟨"MSFT", 35, 2800⟩] : List Constituent), 0 < c.pe) ∧
      (∀ c ∈ ([⟨"AAPL", 30, 3000⟩, ⟨"MSFT", 35, 2800⟩] : List Constituent),
        0 < c.market_cap)) ∧
    weightedPE [⟨"AAPL", 30, 3000⟩, ⟨"MSFT", 35, 2800⟩] *
      totalImpliedEarnings [⟨"AAPL", 30, 3000⟩, ⟨"MSFT", 35, 2800⟩] =
      totalMarketCap [⟨"AAPL", 30, 3000⟩, ⟨"MSFT", 35, 2800⟩] := by
  have hpe : ∀ c ∈ ([⟨"AAPL", 30, 3000⟩, ⟨"MSFT", 35, 2800⟩] : List Constituent),
      0 < c.pe := by
    intro c hc
    rcases List.mem_cons.mp hc with h | h
    · rw [h]; norm_num
    · rw [List.mem_singleton.mp h]; norm_num
  have hmc : ∀ c ∈ ([⟨"AAPL", 30, 3000⟩, ⟨"MSFT", 35, 2800⟩] : List Constituent),
      0 < c.market_cap := by
    intro c hc
    rcases List.mem_cons.mp hc with h | h
    · rw [h]; norm_num
    · rw [List.mem_singleton.mp h]; norm_num
  exact ⟨⟨by simp, hpe, hmc⟩,
    weighted_pe_identity [⟨"AAPL", 30, 3000⟩, ⟨"MSFT", 35, 2800⟩] (by simp) hpe hmc⟩

theorem jsDiv_zero_not_finite (a : ℚ) :
    jsIsFinite (jsDiv a 0) = false ∧ formatCurrency (jsDiv a 0) = CurrencyText.na := by
  unfold jsDiv
  rw [if_pos rfl]
  by_cases h : a = 0
  · rw [if_pos h]
    exact ⟨rfl, rfl⟩
  · rw [if_neg h]
    by_cases h2 : 0 < a
    · rw [if_pos h2]
      exact ⟨rfl, rfl⟩
    · rw [if_neg h2]
      exact ⟨rfl, rfl⟩

/-- C7 counterexample: a constituent with pe = 0 is not excluded — the
frontend renders a card for it and performs the division, producing a
non-finite earnings value (Infinity for market_cap 100). -/
theorem valuation_guard_counterexample :
    ¬ (∀ details : List Constituent,
        (renderCards details).length = (validConstituents details).length ∧
        ∀ card ∈ renderCards details, jsIsFinite card.earnings = true) := by
  intro h
  have h1 := (h [⟨"X", 0, 100⟩]).1
  have hval : validConstituents [⟨"X", 0, 100⟩] = [] := by
    unfold validConstituents
    rw [List.filter_cons, if_neg (by simp)]
    rfl
  rw [hval] at h1
  simp [renderCards] at h1

/-- C7 amended: every constituent — valid or not — is kept and assigned
earnings = market_cap / pe under JS division semantics; a zero PE yields
a non-finite value rather than a crash or an exclusion, and the display
flags it as N/A through formatCurrency. -/
theorem valuation_cards_js (details : List Constituent) :
    (renderCards details).length = details.length ∧
    ∀ i, i < details.length →
      ((renderCards details).getD i ⟨"", JsNum.nan, CurrencyText.na⟩).earnings =
        jsDiv (details.getD i ⟨"", 0, 0⟩).market_cap (details.getD i ⟨"", 0, 0⟩).pe ∧
      ((details.getD i ⟨"", 0, 0⟩).pe = 0 →
        jsIsFinite ((renderCards details).getD i ⟨"", JsNum.nan, CurrencyText.na⟩).earnings
          = false ∧
        ((renderCards details).getD i ⟨"", JsNum.nan, CurrencyText.na⟩).earningsText =
          CurrencyText.na) := by
  refine ⟨by unfold renderCards; rw [List.length_map], ?_⟩
  intro i hi
  have hlen : i < (renderCards details).length := by
    unfold renderCards
    rw [List.length_map]
    exact hi
  rw [List.getD_eq_getElem _ _ hlen, List.getD_eq_getElem _ _ hi]
  have hmap : (renderCards details)[i] =
      { ticker := details[i].ticker
        earnings := jsDiv details[i].market_cap details[i].pe
        earningsText := formatCurrency
          (jsDiv details[i].market_cap details[i].pe) } := by
    unfold renderCards
    rw [List.getElem_map]
  rw [hmap]
  refine ⟨rfl, fun hpe => ?_⟩
  have h := jsDiv_zero_not_finite details[i].market_cap
  rw [hpe]
  exact ⟨h.1, h.2⟩

/-- C7 witness of the amended claim: at the concrete detail list with a
single zero-PE constituent, the card is kept, its earnings is the JS
division result, and it is flagged N/A. -/
theorem valuation_cards_js_witness :
    (0 < ([⟨"X", 0, 100⟩] : List Constituent).length) ∧
    (renderCards [⟨"X", 0, 100⟩]).length = ([⟨"X", 0, 100⟩] : List Constituent).length ∧
    ((renderCards [⟨"X", 0, 100⟩]).getD 0 ⟨"", JsNum.nan, CurrencyText.na⟩).earnings =
      jsDiv (([⟨"X", 0, 100⟩] : List Constituent).getD 0 ⟨"", 0, 0⟩).market_cap
        (([⟨"X", 0, 100⟩] : List Constituent).getD 0 ⟨"", 0, 0⟩).pe ∧
    jsIsFinite ((renderCards [⟨"X", 0, 100⟩]).getD 0
      ⟨"", JsNum.nan, CurrencyText.na⟩).earnings = false ∧
    ((renderCards [⟨"X", 0, 100⟩]).getD 0
      ⟨"", JsNum.nan, CurrencyText.na⟩).earningsText = CurrencyText.na := by
  have h := valuation_cards_js [⟨"X", 0, 100⟩]
  have h2 := h.2 0 (by decide)
  have hpe : (([⟨"X", 0, 100⟩] : List Constituent).getD 0 ⟨"", 0, 0⟩).pe = 0 := rfl
  exact ⟨by decide, h.1, h2.1, (h2.2 hpe).1, (h2.2 hpe).2⟩

theorem varQ_of_all_zero (l : List ℚ) (h : ∀ x ∈ l, x = 0) : varQ l = 0 := by
  have hsum : l.sum = 0 := List.sum_eq_zero h
  unfold varQ meanQ
  rw [hsum, zero_div]
  have hmap : (l.map fun x => (x - 0) ^ 2).sum = 0 := by
    refine List.sum_eq_zero ?_
    intro y hy
    obtain ⟨x, hx, rfl⟩ := List.mem_map.mp hy
    rw [h x hx]
    norm_num
  rw [hmap, zero_div]

theorem simpleReturns_const (n : ℕ) (c : ℚ) (hc : c ≠ 0) :
    ∀ x ∈ simpleReturns (List.replicate n c), x = 0 := by
  intro x hx
  unfold simpleReturns at hx
  obtain ⟨pr, hpr, rfl⟩ := List.mem_map.mp hx
  have hmem := List.mem_zip hpr
  have ha : pr.1 = c := List.eq_of_mem_replicate hmem.1
  have hb : pr.2 = c := List.eq_of_mem_replicate (List.mem_of_mem_tail hmem.2)
  rw [ha, hb, div_self hc, sub_self]

/-- C8: a rolling window with zero variance yields a Z-score reported as
0 (not an error), the history still has one entry per eligible date, and
a constant price series yields a uniformly-zero Z-score history. -/
theorem zscore_degenerate :
    (∀ (r : List ℚ) (L t : ℕ), varQ (windowQ r L t) = 0 → zAt r L t = 0) ∧
    (∀ (r : List ℚ) (L : ℕ), (zHistory r L).length = r.length - L) ∧
    (∀ (n L : ℕ) (c : ℚ), c ≠ 0 →
      ∀ z ∈ zHistory (simpleReturns (List.replicate n c)) L, z = 0) := by
  refine ⟨?_, ?_, ?_⟩
  · intro r L t h
    unfold zAt
    rw [if_pos h]
  · intro r L
    unfold zHistory
    rw [List.length_map, List.length_range]
  · intro n L c hc z hz
    unfold zHistory at hz
    obtain ⟨j, _, rfl⟩ := List.mem_map.mp hz
    unfold zAt
    rw [if_pos]
    apply varQ_of_all_zero
    intro x hx
    exact simpleReturns_const n c hc x
      (List.mem_of_mem_drop (List.mem_of_mem_take hx))

/-- C8 witness: a concrete degenerate window (constant returns) has
zero variance and its Z-score is reported as 0. -/
theorem zscore_degenerate_witness :
    varQ (windowQ [0, 0, 0] 2 2) = 0 ∧ zAt [0, 0, 0] 2 2 = 0 :=
  have h : varQ (windowQ [0, 0, 0] 2 2) = 0 :=
    varQ_of_all_zero _ (by
      intro x hx
      have h3 := List.mem_of_mem_drop (List.mem_of_mem_take hx)
      simp only [List.mem_cons, List.not_mem_nil, or_false] at h3
      rcases h3 with rfl | rfl | rfl <;> rfl)
  ⟨h, zscore_degenerate.1 [0, 0, 0] 2 2 h⟩

/-- C9: the batch Risk/Return output has exactly one entry per requested
ticker, in request order, and a ticker whose price history cannot be
resolved produces a partial-failure entry for that ticker, not an
aborted batch. -/
theorem risk_batch (fetch : String → Option (List ℚ)) (tickers : List String) :
    (riskReturnBatch fetch tickers).length = tickers.length ∧
    ∀ i, i < tickers.length →
      riskItemTicker ((riskReturnBatch fetch tickers).getD i (RiskItem.failure "")) =
        tickers.getD i "" ∧
      (fetch (tickers.getD i "") = none →
        (riskReturnBatch fetch tickers).getD i (RiskItem.failure "") =
          RiskItem.failure (tickers.getD i "") ∧
        riskItemIsFailure
          ((riskReturnBatch fetch tickers).getD i (RiskItem.failure "")) = true) := by
  refine ⟨by unfold riskReturnBatch; rw [List.length_map], ?_⟩
  intro i hi
  have hlen : i < (riskReturnBatch fetch tickers).length := by
    unfold riskReturnBatch
    rw [List.length_map]
    exact hi
  rw [List.getD_eq_getElem _ _ hlen, List.getD_eq_getElem _ _ hi]
  have hmap : (riskReturnBatch fetch tickers)[i] =
      (match fetch tickers[i] with
        | none => RiskItem.failure tickers[i]
        | some ps => RiskItem.success (mkRiskPoint tickers[i] ps)) := by
    unfold riskReturnBatch
    rw [List.getElem_map]
  rw [hmap]
  cases hft : fetch tickers[i] with
  | none => exact ⟨rfl, fun _ => ⟨rfl, rfl⟩⟩
  | some ps =>
      exact ⟨rfl, fun hnone => Option.noConfusion hnone⟩

/-- C9 witness: a two-ticker batch where the second ticker is
unresolvable still yields two entries, with a failure entry in second
position. -/
theorem risk_batch_witness :
    (1 < (["AAPL", "ZZZ"] : List String).length ∧
      (fun t => if t = "AAPL" then some ([100, 101] : List ℚ) else none) "ZZZ" = none) ∧
    ((riskReturnBatch (fun t => if t = "AAPL" then some ([100, 101] : List ℚ) else none)
        ["AAPL", "ZZZ"]).getD 1 (RiskItem.failure "") = RiskItem.failure "ZZZ" ∧
      riskItemIsFailure
        ((riskReturnBatch (fun t => if t = "AAPL" then some ([100, 101] : List ℚ) else none)
          ["AAPL", "ZZZ"]).getD 1 (RiskItem.failure "")) = true) := by
  have hnone : (fun t => if t = "AAPL" then some ([100, 101] : List ℚ) else none) "ZZZ"
      = none := by decide
  exact ⟨⟨by decide, hnone⟩,
    ((risk_batch (fun t => if t = "AAPL" then some ([100, 101] : List ℚ) else none)
      ["AAPL", "ZZZ"]).2 1 (by decide)).2 hnone⟩
